import Mathlib

/-!
# go-ibft: message helpers and validator quorum

A shallow embedding of `messages/helpers.go` (payload extractors, sender
uniqueness, prepared-certificate validation) and of the validator manager's
quorum rule exercised by `core/validator_manager_test.go`.

Conventions of the embedding:

* `common.Address` (20 bytes) and `common.Hash` (32 bytes) are fixed-width
  values, embedded as `Fin (2^160)` and `Fin (2^256)`; the zero value
  `common.Hash{}` is `0`.
* `uint64` heights and rounds are natural numbers; the code only compares
  them, so no wrap-around arises.
* Go pointers to messages, views and payload bodies are embedded as values:
  the nil-pointer dereference panics of the Go code are outside the model.
  A nil result pointer (`nil` seal, proposal, certificate) is `none`.
* The `proto` package is not part of the sources at hand.  The payload
  interface is the sum type `Payload`; the types of proposals and
  certificates are parameters `P` (proposal), `R` (round-change
  certificate) and `C` (prepared certificate).
-/

namespace IBFT

/-! ## Data model -/

/-- The 20-byte `common.Address`. -/
abbrev Address := Fin (2 ^ 160)

/-- The 32-byte `common.Hash`. -/
abbrev Hash := Fin (2 ^ 256)

/-- The zero value `common.Hash{}`. -/
def zeroHash : Hash := 0

/-- The `proto.MessageType` enumeration; `UNKNOWN n` stands for the numeric
values that name no declared kind (the `default:` arm of a switch). -/
inductive MessageType where
  | PREPREPARE
  | PREPARE
  | COMMIT
  | ROUND_CHANGE
  | UNKNOWN (n : Nat)
  deriving DecidableEq, Repr

/-- The `proto.View`: height and round of a consensus attempt. -/
structure View where
  Height : Nat
  Round : Nat
  deriving DecidableEq, Repr

/-- Body of a PREPREPARE payload. -/
structure PrePrepareMessage (P R : Type) where
  Proposal : Option P
  ProposalHash : Hash
  Certificate : Option R

/-- Body of a PREPARE payload. -/
structure PrepareMessage where
  ProposalHash : Hash

/-- Body of a COMMIT payload. -/
structure CommitMessage where
  ProposalHash : Hash
  CommittedSeal : List (Fin 256)

/-- Body of a ROUND_CHANGE payload. -/
structure RoundChangeMessage (P C : Type) where
  LastPreparedProposal : Option P
  LatestPreparedCertificate : Option C

/-- The payload interface of a message: one of the four wrapper variants,
or `absent` for a nil interface value. -/
inductive Payload (P R C : Type) where
  | absent
  | PreprepareData (d : PrePrepareMessage P R)
  | PrepareData (d : PrepareMessage)
  | CommitData (d : CommitMessage)
  | RoundChangeData (d : RoundChangeMessage P C)

/-- The `proto.IbftMessage` envelope.  `MsgType` is the Go field `Type`. -/
structure IbftMessage (P R C : Type) where
  View : View
  From : Address
  MsgType : MessageType
  Payload : Payload P R C

/-- Validator proof of signing a committed proposal. -/
structure CommittedSeal where
  Signer : Address
  Signature : List (Fin 256)
  deriving DecidableEq

/-- The errors of the package. -/
inductive MessagesError where
  | ErrWrongCommitMessageType
  deriving DecidableEq, Repr

variable {P R C : Type}

/-! ## Payload extractors -/

/-- Extracts the committed seal from the passed in message. -/
def ExtractCommittedSeal (commitMessage : IbftMessage P R C) : Option CommittedSeal :=
  match commitMessage.Payload with
  | .CommitData commitData =>
      some { Signer := commitMessage.From, Signature := commitData.CommittedSeal }
  | _ => none

/-- The loop of `ExtractCommittedSeals`, with the accumulated seals. -/
def extractCommittedSealsLoop :
    List (IbftMessage P R C) → List (Option CommittedSeal) →
      Option (List (Option CommittedSeal)) × Option MessagesError
  | [], committedSeals => (some committedSeals, none)
  | commitMessage :: rest, committedSeals =>
      if commitMessage.MsgType ≠ MessageType.COMMIT then
        (none, some MessagesError.ErrWrongCommitMessageType)
      else
        extractCommittedSealsLoop rest (committedSeals ++ [ExtractCommittedSeal commitMessage])

/-- Extracts the committed seals from the passed in messages.  The result is
the Go pair `([]*CommittedSeal, error)`: a nil slice is `none`, a nil error
is `none`. -/
def ExtractCommittedSeals (commitMessages : List (IbftMessage P R C)) :
    Option (List (Option CommittedSeal)) × Option MessagesError :=
  extractCommittedSealsLoop commitMessages []

/-- Extracts the commit proposal hash from the passed in message. -/
def ExtractCommitHash (commitMessage : IbftMessage P R C) : Hash :=
  if commitMessage.MsgType ≠ MessageType.COMMIT then zeroHash
  else
    match commitMessage.Payload with
    | .CommitData commitData => commitData.ProposalHash
    | _ => zeroHash

/-- Extracts the proposal from the passed in message. -/
def ExtractProposal (proposalMessage : IbftMessage P R C) : Option P :=
  if proposalMessage.MsgType ≠ MessageType.PREPREPARE then none
  else
    match proposalMessage.Payload with
    | .PreprepareData preprepareData => preprepareData.Proposal
    | _ => none

/-- Extracts the proposal hash from the passed in message. -/
def ExtractProposalHash (proposalMessage : IbftMessage P R C) : Hash :=
  if proposalMessage.MsgType ≠ MessageType.PREPREPARE then zeroHash
  else
    match proposalMessage.Payload with
    | .PreprepareData preprepareData => preprepareData.ProposalHash
    | _ => zeroHash

/-- Extracts the round-change certificate from the passed in message. -/
def ExtractRoundChangeCertificate (proposalMessage : IbftMessage P R C) : Option R :=
  if proposalMessage.MsgType ≠ MessageType.PREPREPARE then none
  else
    match proposalMessage.Payload with
    | .PreprepareData preprepareData => preprepareData.Certificate
    | _ => none

/-- Extracts the prepare proposal hash from the passed in message. -/
def ExtractPrepareHash (prepareMessage : IbftMessage P R C) : Hash :=
  if prepareMessage.MsgType ≠ MessageType.PREPARE then zeroHash
  else
    match prepareMessage.Payload with
    | .PrepareData prepareData => prepareData.ProposalHash
    | _ => zeroHash

/-- Extracts the latest prepared certificate from the passed in message. -/
def ExtractLatestPC (roundChangeMessage : IbftMessage P R C) : Option C :=
  if roundChangeMessage.MsgType ≠ MessageType.ROUND_CHANGE then none
  else
    match roundChangeMessage.Payload with
    | .RoundChangeData rcData => rcData.LatestPreparedCertificate
    | _ => none

/-- Extracts the latest prepared proposal from the passed in message. -/
def ExtractLastPreparedProposal (roundChangeMessage : IbftMessage P R C) : Option P :=
  if roundChangeMessage.MsgType ≠ MessageType.ROUND_CHANGE then none
  else
    match roundChangeMessage.Payload with
    | .RoundChangeData rcData => rcData.LastPreparedProposal
    | _ => none

/-! ## Message set validation -/

/-- The loop of `HasUniqueSenders`; `senderMap` is the set of senders seen so
far (the map is only used for membership). -/
def hasUniqueSendersLoop : List (IbftMessage P R C) → List Address → Bool
  | [], _ => true
  | message :: rest, senderMap =>
      if message.From ∈ senderMap then false
      else hasUniqueSendersLoop rest (message.From :: senderMap)

/-- Checks if the messages have unique senders. -/
def HasUniqueSenders (messages : List (IbftMessage P R C)) : Bool :=
  if messages.length < 1 then false
  else hasUniqueSendersLoop messages []

/-- Extracts the hash from a PC message, with the flag telling whether the
message kind may belong to a prepared certificate. -/
def extractPCMessageHash (message : IbftMessage P R C) : Hash × Bool :=
  match message.MsgType with
  | .PREPREPARE => (ExtractProposalHash message, true)
  | .PREPARE => (ExtractPrepareHash message, true)
  | .COMMIT => (zeroHash, false)
  | .ROUND_CHANGE => (zeroHash, false)
  | .UNKNOWN _ => (zeroHash, false)

/-- The loop of `AreValidPCMessages`: `round` is the round of the first
message, `hash` the reference hash so far and `senderMap` the senders seen
so far. -/
def areValidPCMessagesLoop (height roundLimit round : Nat) :
    List (IbftMessage P R C) → Hash → List Address → Bool
  | [], _, _ => true
  | message :: rest, hash, senderMap =>
      if message.View.Height ≠ height then false
      else if message.View.Round ≠ round ∨ message.View.Round ≥ roundLimit then false
      else
        let extracted := extractPCMessageHash message
        let hash := if hash = zeroHash then extracted.1 else hash
        if extracted.2 = false ∨ hash ≠ extracted.1 then false
        else if message.From ∈ senderMap then false
        else areValidPCMessagesLoop height roundLimit round rest hash (message.From :: senderMap)

/-- Validates PreparedCertificate messages. -/
def AreValidPCMessages (messages : List (IbftMessage P R C)) (height roundLimit : Nat) : Bool :=
  match messages with
  | [] => false
  | first :: _ =>
      areValidPCMessagesLoop height roundLimit first.View.Round messages zeroHash []

/-! ## Concrete messages used in examples -/

/-- A PREPARE message carrying prepare data. -/
def mkPrepare (sender : Address) (height round : Nat) (h : Hash) : IbftMessage Unit Unit Unit :=
  { View := { Height := height, Round := round }, From := sender,
    MsgType := MessageType.PREPARE, Payload := Payload.PrepareData { ProposalHash := h } }

/-- A PREPREPARE message carrying preprepare data without proposal or certificate. -/
def mkPreprepare (sender : Address) (height round : Nat) (h : Hash) :
    IbftMessage Unit Unit Unit :=
  { View := { Height := height, Round := round }, From := sender,
    MsgType := MessageType.PREPREPARE,
    Payload := Payload.PreprepareData { Proposal := none, ProposalHash := h, Certificate := none } }

/-- A message of an arbitrary declared kind with no payload at all. -/
def mkBare (kind : MessageType) (sender : Address) (height round : Nat) :
    IbftMessage Unit Unit Unit :=
  { View := { Height := height, Round := round }, From := sender,
    MsgType := kind, Payload := Payload.absent }

/-- A message of an arbitrary declared kind carrying commit data. -/
def mkWithCommitData (kind : MessageType) (sender : Address) (height round : Nat)
    (h : Hash) (signature : List (Fin 256)) : IbftMessage Unit Unit Unit :=
  { View := { Height := height, Round := round }, From := sender,
    MsgType := kind, Payload := Payload.CommitData { ProposalHash := h, CommittedSeal := signature } }

/-- Whether the payload variant of a message is the one of its declared
kind (a predicate of the specification, not a function of the code). -/
def payloadMatchesKind (message : IbftMessage P R C) : Bool :=
  match message.MsgType, message.Payload with
  | .PREPREPARE, .PreprepareData _ => true
  | .PREPARE, .PrepareData _ => true
  | .COMMIT, .CommitData _ => true
  | .ROUND_CHANGE, .RoundChangeData _ => true
  | _, _ => false

/-! ## Validator manager

The validator manager itself (`core/validator_manager.go`) is not among the
sources at hand; only its test is.  It is modelled from the specification. -/

/-- Modelled from the spec: the voting power table, "a mapping from validator
address to voting power" in which "each address appears at most once"; the
voting power is a non-negative integer.  The Go type is not among the
sources. -/
structure VotingPowerTable where
  entries : List (Address × Nat)
  nodupKeys : (entries.map Prod.fst).Nodup

/-- Modelled from the spec: the state of the validator manager, the current
voting power table (the lock is not modelled).  The Go type is not among the
sources. -/
structure ValidatorManager where
  validatorsVotingPower : VotingPowerTable

/-- Modelled from the spec: the only error of `setCurrentVotingPower`, the
rejection of a nil table. -/
inductive ValidatorError where
  | nilVotingPower
  deriving DecidableEq, Repr

/-- The empty voting power table. -/
def VotingPowerTable.empty : VotingPowerTable := ⟨[], List.nodup_nil⟩

/-- The validators of a table. -/
def VotingPowerTable.validators (table : VotingPowerTable) : Finset Address :=
  (table.entries.map Prod.fst).toFinset

/-- The voting power of an address, zero when the address is not a validator
of the table. -/
def VotingPowerTable.power (table : VotingPowerTable) (a : Address) : Nat :=
  match table.entries.lookup a with
  | some p => p
  | none => 0

/-- A validator manager before any table is installed. -/
def newValidatorManager : ValidatorManager := ⟨VotingPowerTable.empty⟩

/-- Modelled from the spec: `setVotingPower(table)` "replaces the current
table atomically.  Input must be non-nil; an empty table is accepted.  No
error conditions beyond nil rejection."  The Go function
`setCurrentVotingPower` is not among the sources.  A nil map is `none`. -/
def setCurrentVotingPower (_vm : ValidatorManager) (table : Option VotingPowerTable) :
    Except ValidatorError ValidatorManager :=
  match table with
  | none => .error ValidatorError.nilVotingPower
  | some t => .ok ⟨t⟩

/-- Modelled from the spec: "total = Σ voting power of all validators in the
current table". -/
def totalVotingPower (table : VotingPowerTable) : Nat :=
  (table.entries.map Prod.snd).sum

/-- Modelled from the spec: "signed = Σ voting power of addresses in signers
that are also present in the current table (addresses not recognized as
current validators contribute zero)". -/
def signedVotingPower (table : VotingPowerTable) (signers : Finset Address) : Nat :=
  ∑ a ∈ signers, table.power a

/-- Modelled from the spec: "quorumThreshold(total) = ⌊2·total / 3⌋ + 1". -/
def quorumThreshold (total : Nat) : Nat := 2 * total / 3 + 1

/-- Modelled from the spec: `hasQuorum(signers)` "returns
signed ≥ quorumThreshold(total)".  The Go function `HasQuorum` is not among
the sources. -/
def HasQuorum (vm : ValidatorManager) (signers : Finset Address) : Bool :=
  decide (quorumThreshold (totalVotingPower vm.validatorsVotingPower)
    ≤ signedVotingPower vm.validatorsVotingPower signers)

/-- The table of the first test case: four validators of voting power 1. -/
def tableOfFour : VotingPowerTable :=
  ⟨[(65, 1), (66, 1), (67, 1), (68, 1)], by decide⟩

/-- A table whose only validator has voting power zero. -/
def tableOfZero : VotingPowerTable :=
  ⟨[(65, 0)], by decide⟩

/-! ## The loop of `AreValidPCMessages`, one iteration at a time -/

/-- One iteration of the validation loop: the loop accepts `message :: rest`
exactly when the message passes the height, round, kind, hash and sender
checks and the loop accepts the rest from the updated state. -/
theorem areValidPCMessagesLoop_cons (height roundLimit round : Nat)
    (message : IbftMessage P R C) (rest : List (IbftMessage P R C))
    (hash : Hash) (senderMap : List Address) :
    areValidPCMessagesLoop height roundLimit round (message :: rest) hash senderMap = true ↔
      message.View.Height = height ∧ message.View.Round = round ∧
      message.View.Round < roundLimit ∧ (extractPCMessageHash message).2 = true ∧
      (if hash = zeroHash then (extractPCMessageHash message).1 else hash)
        = (extractPCMessageHash message).1 ∧
      message.From ∉ senderMap ∧
      areValidPCMessagesLoop height roundLimit round rest
        (if hash = zeroHash then (extractPCMessageHash message).1 else hash)
        (message.From :: senderMap) = true := by
  rw [areValidPCMessagesLoop]
  by_cases h1 : message.View.Height = height
  · by_cases h2 : message.View.Round = round
    · subst h2
      by_cases h3 : message.View.Round < roundLimit
      · by_cases h4 : (extractPCMessageHash message).2 = true
        · by_cases h5 : (if hash = zeroHash then (extractPCMessageHash message).1 else hash)
              = (extractPCMessageHash message).1
          · by_cases h6 : message.From ∈ senderMap
            · simp [h1, h3, h4, h5, h6]
            · simp [h1, h3, h4, h5, h6]
          · simp [h1, h3, h4, h5]
        · simp [h1, h3, h4]
      · simp [h1, h3]
    · simp [h1, h2]
  · simp [h1]

/-- Every message the loop accepts has the given height, the reference round,
a round below the limit, and a kind that belongs to a prepared certificate. -/
theorem areValidPCMessagesLoop_forall {height roundLimit round : Nat} :
    ∀ (messages : List (IbftMessage P R C)) (hash : Hash) (senderMap : List Address),
      areValidPCMessagesLoop height roundLimit round messages hash senderMap = true →
      ∀ m ∈ messages, m.View.Height = height ∧ m.View.Round = round ∧
        m.View.Round < roundLimit ∧ (extractPCMessageHash m).2 = true := by
  intro messages
  induction messages with
  | nil => intro _ _ _ m hm; simp at hm
  | cons message rest ih =>
      intro hash senderMap hloop m hm
      rw [areValidPCMessagesLoop_cons] at hloop
      obtain ⟨h1, h2, h3, h4, _, _, hrest⟩ := hloop
      rcases List.mem_cons.mp hm with rfl | hm
      · exact ⟨h1, h2, h3, h4⟩
      · exact ih _ _ hrest m hm

/-- The senders of an accepted list are new with respect to the seen set
and pairwise distinct. -/
theorem areValidPCMessagesLoop_senders {height roundLimit round : Nat} :
    ∀ (messages : List (IbftMessage P R C)) (hash : Hash) (senderMap : List Address),
      areValidPCMessagesLoop height roundLimit round messages hash senderMap = true →
      (∀ m ∈ messages, m.From ∉ senderMap) ∧
        messages.Pairwise (fun a b => a.From ≠ b.From) := by
  intro messages
  induction messages with
  | nil => intro _ _ _; simp
  | cons message rest ih =>
      intro hash senderMap hloop
      rw [areValidPCMessagesLoop_cons] at hloop
      obtain ⟨_, _, _, _, _, hnew, hrest⟩ := hloop
      obtain ⟨hfresh, hpair⟩ := ih _ _ hrest
      refine ⟨?_, ?_⟩
      · intro m hm
        rcases List.mem_cons.mp hm with rfl | hm
        · exact hnew
        · exact fun hin => hfresh m hm (List.mem_cons_of_mem _ hin)
      · refine List.pairwise_cons.mpr ⟨?_, hpair⟩
        intro m hm heq
        exact hfresh m hm (by rw [← heq]; exact List.mem_cons_self _ _)

/-- Once the reference hash is fixed (non-zero), every accepted message
yields exactly that hash. -/
theorem areValidPCMessagesLoop_hash_fixed {height roundLimit round : Nat} :
    ∀ (messages : List (IbftMessage P R C)) (hash : Hash) (senderMap : List Address),
      hash ≠ zeroHash →
      areValidPCMessagesLoop height roundLimit round messages hash senderMap = true →
      ∀ m ∈ messages, (extractPCMessageHash m).1 = hash := by
  intro messages
  induction messages with
  | nil => intro _ _ _ _ m hm; simp at hm
  | cons message rest ih =>
      intro hash senderMap hne hloop m hm
      rw [areValidPCMessagesLoop_cons] at hloop
      obtain ⟨_, _, _, _, heq, _, hrest⟩ := hloop
      rw [if_neg hne] at heq hrest
      rcases List.mem_cons.mp hm with rfl | hm
      · exact heq.symm
      · exact ih _ _ hne hrest m hm

/-- In an accepted list, a message that yields a non-zero hash forces every
later message to yield the same hash. -/
theorem areValidPCMessagesLoop_hash_after {height roundLimit round : Nat} :
    ∀ (messages : List (IbftMessage P R C)) (hash : Hash) (senderMap : List Address),
      areValidPCMessagesLoop height roundLimit round messages hash senderMap = true →
      ∀ a b : IbftMessage P R C, [a, b].Sublist messages →
        (extractPCMessageHash a).1 ≠ zeroHash →
        (extractPCMessageHash b).1 = (extractPCMessageHash a).1 := by
  intro messages
  induction messages with
  | nil => intro _ _ _ a b hsub; simp at hsub
  | cons message rest ih =>
      intro hash senderMap hloop a b hsub ha
      rw [areValidPCMessagesLoop_cons] at hloop
      obtain ⟨_, _, _, _, heq, _, hrest⟩ := hloop
      rcases List.sublist_cons_iff.mp hsub with hsub | ⟨r, hr, hsub⟩
      · exact ih _ _ hrest a b hsub ha
      · injection hr with h1 h2
        subst h1 h2
        have hb : b ∈ rest := List.singleton_sublist.mp hsub
        rw [heq] at hrest
        exact areValidPCMessagesLoop_hash_fixed rest _ _ ha hrest b hb

/-- A list whose messages all pass the per-message checks, all yield the
hash `x`, and have fresh and pairwise distinct senders is accepted from any
state whose reference hash is unset or already `x`. -/
theorem areValidPCMessagesLoop_of_consistent {height roundLimit round : Nat} (x : Hash) :
    ∀ (messages : List (IbftMessage P R C)) (hash : Hash) (senderMap : List Address),
      (hash = zeroHash ∨ hash = x) →
      (∀ m ∈ messages, m.View.Height = height ∧ m.View.Round = round ∧
        m.View.Round < roundLimit ∧ extractPCMessageHash m = (x, true)) →
      (∀ m ∈ messages, m.From ∉ senderMap) →
      messages.Pairwise (fun a b => a.From ≠ b.From) →
      areValidPCMessagesLoop height roundLimit round messages hash senderMap = true := by
  intro messages
  induction messages with
  | nil => intro _ _ _ _ _ _; rfl
  | cons message rest ih =>
      intro hash senderMap hhash hall hfresh hpair
      obtain ⟨h1, h2, h3, h4⟩ := hall message (List.mem_cons_self _ _)
      have hnext : (if hash = zeroHash then (extractPCMessageHash message).1 else hash) = x := by
        rcases hhash with h0 | hx
        · rw [if_pos h0, h4]
        · by_cases h0 : hash = zeroHash
          · rw [if_pos h0, h4]
          · rw [if_neg h0, hx]
      rw [areValidPCMessagesLoop_cons, hnext]
      obtain ⟨hhead, htail⟩ := List.pairwise_cons.mp hpair
      refine ⟨h1, h2, h3, by rw [h4], by rw [h4], hfresh message (List.mem_cons_self _ _), ?_⟩
      refine ih x _ (Or.inr rfl) (fun m hm => hall m (List.mem_cons_of_mem _ hm)) ?_ htail
      intro m hm hin
      rcases List.mem_cons.mp hin with heq | hin
      · exact hhead m hm heq.symm
      · exact hfresh m (List.mem_cons_of_mem _ hm) hin

/-- Unfolding of `AreValidPCMessages` on a non-empty list. -/
theorem AreValidPCMessages_cons (first : IbftMessage P R C) (rest : List (IbftMessage P R C))
    (height roundLimit : Nat) :
    AreValidPCMessages (first :: rest) height roundLimit =
      areValidPCMessagesLoop height roundLimit first.View.Round (first :: rest) zeroHash [] :=
  rfl

/-- An accepted list is non-empty and accepted by the loop started from the
round of its first message, the unset reference hash and no seen sender. -/
theorem AreValidPCMessages_true {messages : List (IbftMessage P R C)} {height roundLimit : Nat}
    (h : AreValidPCMessages messages height roundLimit = true) :
    ∃ first rest, messages = first :: rest ∧
      areValidPCMessagesLoop height roundLimit first.View.Round messages zeroHash [] = true := by
  cases messages with
  | nil => simp [AreValidPCMessages] at h
  | cons first rest => exact ⟨first, rest, rfl, h⟩

/-- A PREPREPARE or PREPARE message whose payload is not the variant of its
kind yields the zero hash. -/
theorem extractPCMessageHash_of_mismatch (message : IbftMessage P R C)
    (hkind : message.MsgType = MessageType.PREPREPARE ∨ message.MsgType = MessageType.PREPARE)
    (hpayload : payloadMatchesKind message = false) :
    (extractPCMessageHash message).1 = zeroHash := by
  obtain ⟨view, sender, kind, payload⟩ := message
  simp only at hkind
  rcases hkind with rfl | rfl <;> cases payload <;>
    simp_all [extractPCMessageHash, ExtractProposalHash, ExtractPrepareHash, payloadMatchesKind]

/-! ## Claims about `AreValidPCMessages` -/

/-- C1, evaluated at the failing input: a PREPARE carrying the zero hash
followed by a PREPARE of another sender carrying the hash 7 have different
extracted hashes, and `AreValidPCMessages` accepts the pair. -/
theorem AreValidPCMessages_accepts_hash_mismatch :
    ExtractPrepareHash (mkPrepare 1 5 0 0) ≠ ExtractPrepareHash (mkPrepare 2 5 0 7) ∧
      AreValidPCMessages [mkPrepare 1 5 0 0, mkPrepare 2 5 0 7] 5 1 = true := by
  decide

/-- C2: a non-empty list of PREPREPARE messages carrying preprepare data and
PREPARE messages carrying prepare data, all of the given height, of one round
below the round limit, carrying one proposal hash, with pairwise distinct
senders, is accepted by `AreValidPCMessages`. -/
theorem AreValidPCMessages_of_consistent (messages : List (IbftMessage P R C))
    (height roundLimit round : Nat) (proposalHash : Hash)
    (hne : messages ≠ [])
    (hkind : ∀ m ∈ messages,
      (m.MsgType = MessageType.PREPREPARE ∧
        ∃ d, m.Payload = Payload.PreprepareData d ∧ d.ProposalHash = proposalHash) ∨
      (m.MsgType = MessageType.PREPARE ∧
        ∃ d, m.Payload = Payload.PrepareData d ∧ d.ProposalHash = proposalHash))
    (hheight : ∀ m ∈ messages, m.View.Height = height)
    (hround : ∀ m ∈ messages, m.View.Round = round)
    (hlimit : round < roundLimit)
    (hsenders : messages.Pairwise (fun a b => a.From ≠ b.From)) :
    AreValidPCMessages messages height roundLimit = true := by
  cases messages with
  | nil => exact absurd rfl hne
  | cons first rest =>
      rw [AreValidPCMessages_cons, hround first (List.mem_cons_self _ _)]
      refine areValidPCMessagesLoop_of_consistent proposalHash _ _ _ (Or.inl rfl) ?_
        (fun m _ => List.not_mem_nil _) hsenders
      intro m hm
      refine ⟨hheight m hm, hround m hm, by rw [hround m hm]; exact hlimit, ?_⟩
      rcases hkind m hm with ⟨hk, d, hp, hd⟩ | ⟨hk, d, hp, hd⟩
      · simp [extractPCMessageHash, ExtractProposalHash, hk, hp, hd]
      · simp [extractPCMessageHash, ExtractPrepareHash, hk, hp, hd]

/-- Witness of C2: a PREPREPARE and a PREPARE of height 5 and round 0, both
carrying the hash 7, from the senders 1 and 2, with round limit 1. -/
theorem AreValidPCMessages_of_consistent_witness :
    AreValidPCMessages [mkPreprepare 1 5 0 7, mkPrepare 2 5 0 7] 5 1 = true :=
  AreValidPCMessages_of_consistent [mkPreprepare 1 5 0 7, mkPrepare 2 5 0 7] 5 1 0 7
    (by simp)
    (by
      intro m hm
      simp only [List.mem_cons, List.mem_singleton, List.not_mem_nil, or_false] at hm
      rcases hm with rfl | rfl
      · exact Or.inl ⟨rfl, _, rfl, rfl⟩
      · exact Or.inr ⟨rfl, _, rfl, rfl⟩)
    (by
      intro m hm
      simp only [List.mem_cons, List.mem_singleton, List.not_mem_nil, or_false] at hm
      rcases hm with rfl | rfl <;> rfl)
    (by
      intro m hm
      simp only [List.mem_cons, List.mem_singleton, List.not_mem_nil, or_false] at hm
      rcases hm with rfl | rfl <;> rfl)
    (by decide)
    (by simp [mkPreprepare, mkPrepare])

/-- C5: `AreValidPCMessages` returns false when the list is empty, when some
message has a height other than the given one, when some message has a round
other than the round of the first message, and when two messages at different
positions have the same sender. -/
theorem AreValidPCMessages_false_of_structure (messages : List (IbftMessage P R C))
    (height roundLimit : Nat)
    (h : messages = [] ∨
      (∃ m ∈ messages, m.View.Height ≠ height) ∨
      (∃ first ∈ messages.head?, ∃ m ∈ messages, m.View.Round ≠ first.View.Round) ∨
      (∃ i j : Fin messages.length, i ≠ j ∧ (messages.get i).From = (messages.get j).From)) :
    AreValidPCMessages messages height roundLimit = false := by
  by_contra hvalid
  rw [Bool.not_eq_false] at hvalid
  obtain ⟨first, rest, rfl, hloop⟩ := AreValidPCMessages_true hvalid
  have hall := areValidPCMessagesLoop_forall _ _ _ hloop
  have hpair := (areValidPCMessagesLoop_senders _ _ _ hloop).2
  rcases h with h | ⟨m, hm, hne⟩ | ⟨f, hf, m, hm, hne⟩ | ⟨i, j, hij, heq⟩
  · exact List.cons_ne_nil _ _ h
  · exact hne (hall m hm).1
  · simp only [List.head?_cons, Option.mem_def, Option.some.injEq] at hf
    subst hf
    exact hne (hall m hm).2.1
  · rw [List.pairwise_iff_get] at hpair
    rcases lt_or_gt_of_ne hij with hlt | hgt
    · exact hpair i j hlt heq
    · exact hpair j i hgt heq.symm

/-- Witness of C5: two PREPARE messages of the same sender. -/
theorem AreValidPCMessages_false_of_structure_witness :
    AreValidPCMessages [mkPrepare 1 5 0 7, mkPrepare 1 5 0 7] 5 1 = false :=
  AreValidPCMessages_false_of_structure [mkPrepare 1 5 0 7, mkPrepare 1 5 0 7] 5 1
    (Or.inr (Or.inr (Or.inr ⟨⟨0, by decide⟩, ⟨1, by decide⟩, by decide, rfl⟩)))

/-- C6, counterexample: a PREPREPARE message without any payload does not
carry the variant of its kind, its extracted hash is the zero sentinel, and
the list made of this single message is accepted. -/
theorem AreValidPCMessages_accepts_payload_mismatch :
    (mkBare MessageType.PREPREPARE 1 5 0).MsgType = MessageType.PREPREPARE ∧
      payloadMatchesKind (mkBare MessageType.PREPREPARE 1 5 0) = false ∧
      (extractPCMessageHash (mkBare MessageType.PREPREPARE 1 5 0)).1 = zeroHash ∧
      AreValidPCMessages [mkBare MessageType.PREPREPARE 1 5 0] 5 1 = true := by
  decide

/-- C6, amended: a list in which a PREPREPARE or PREPARE message whose payload
is not the variant of its kind comes after a message that yields a non-zero
hash is rejected by `AreValidPCMessages`. -/
theorem AreValidPCMessages_false_of_mismatch_after_hash (messages : List (IbftMessage P R C))
    (height roundLimit : Nat) (a b : IbftMessage P R C)
    (horder : [a, b].Sublist messages)
    (ha : (extractPCMessageHash a).1 ≠ zeroHash)
    (hkind : b.MsgType = MessageType.PREPREPARE ∨ b.MsgType = MessageType.PREPARE)
    (hpayload : payloadMatchesKind b = false) :
    AreValidPCMessages messages height roundLimit = false := by
  by_contra hvalid
  rw [Bool.not_eq_false] at hvalid
  obtain ⟨first, rest, rfl, hloop⟩ := AreValidPCMessages_true hvalid
  have hsame := areValidPCMessagesLoop_hash_after _ _ _ hloop a b horder ha
  rw [extractPCMessageHash_of_mismatch b hkind hpayload] at hsame
  exact ha hsame.symm

/-- Witness of C6 amended: a PREPARE carrying the hash 7 followed by a PREPARE
without payload. -/
theorem AreValidPCMessages_false_of_mismatch_after_hash_witness :
    AreValidPCMessages [mkPrepare 1 5 0 7, mkBare MessageType.PREPARE 2 5 0] 5 1 = false :=
  AreValidPCMessages_false_of_mismatch_after_hash
    [mkPrepare 1 5 0 7, mkBare MessageType.PREPARE 2 5 0] 5 1
    (mkPrepare 1 5 0 7) (mkBare MessageType.PREPARE 2 5 0)
    (List.Sublist.refl _) (by decide) (Or.inr rfl) rfl

/-- C7: a list containing a message whose declared kind is neither PREPREPARE
nor PREPARE is rejected by `AreValidPCMessages`, whatever the height and the
round limit. -/
theorem AreValidPCMessages_false_of_kind (messages : List (IbftMessage P R C))
    (height roundLimit : Nat)
    (h : ∃ m ∈ messages,
      m.MsgType ≠ MessageType.PREPREPARE ∧ m.MsgType ≠ MessageType.PREPARE) :
    AreValidPCMessages messages height roundLimit = false := by
  by_contra hvalid
  rw [Bool.not_eq_false] at hvalid
  obtain ⟨first, rest, rfl, hloop⟩ := AreValidPCMessages_true hvalid
  obtain ⟨m, hm, hpp, hp⟩ := h
  have hok := (areValidPCMessagesLoop_forall _ _ _ hloop m hm).2.2.2
  obtain ⟨view, sender, kind, payload⟩ := m
  cases kind <;> simp_all [extractPCMessageHash]

/-- Witness of C7: a PREPARE followed by a COMMIT. -/
theorem AreValidPCMessages_false_of_kind_witness :
    AreValidPCMessages [mkPrepare 1 5 0 7, mkBare MessageType.COMMIT 2 5 0] 5 1 = false :=
  AreValidPCMessages_false_of_kind [mkPrepare 1 5 0 7, mkBare MessageType.COMMIT 2 5 0] 5 1
    ⟨mkBare MessageType.COMMIT 2 5 0, by simp, by decide, by decide⟩

/-- C8: the round limit is exclusive.  Every message of an accepted list has a
round strictly below the round limit; a list whose messages all have the
round `roundLimit` is rejected; with round limit 0 every list is rejected. -/
theorem AreValidPCMessages_round_limit (messages : List (IbftMessage P R C))
    (height roundLimit : Nat) :
    (AreValidPCMessages messages height roundLimit = true →
        ∀ m ∈ messages, m.View.Round < roundLimit) ∧
      ((∀ m ∈ messages, m.View.Round = roundLimit) →
        AreValidPCMessages messages height roundLimit = false) ∧
      AreValidPCMessages messages height 0 = false := by
  have key : ∀ limit : Nat, AreValidPCMessages messages height limit = true →
      messages ≠ [] ∧ ∀ m ∈ messages, m.View.Round < limit := by
    intro limit hvalid
    obtain ⟨first, rest, rfl, hloop⟩ := AreValidPCMessages_true hvalid
    exact ⟨List.cons_ne_nil _ _, fun m hm => (areValidPCMessagesLoop_forall _ _ _ hloop m hm).2.2.1⟩
  refine ⟨fun hvalid => (key _ hvalid).2, ?_, ?_⟩
  · intro hround
    by_contra hvalid
    rw [Bool.not_eq_false] at hvalid
    obtain ⟨hne, hlt⟩ := key _ hvalid
    obtain ⟨m, hm⟩ := List.exists_mem_of_ne_nil _ hne
    exact absurd (hround m hm) (Nat.ne_of_lt (hlt m hm))
  · by_contra hvalid
    rw [Bool.not_eq_false] at hvalid
    obtain ⟨hne, hlt⟩ := key _ hvalid
    obtain ⟨m, hm⟩ := List.exists_mem_of_ne_nil _ hne
    exact Nat.not_lt_zero _ (hlt m hm)

/-- Witness of C8: an accepted pair of round 0 under the round limit 1, and
the same pair rejected under the round limit 0. -/
theorem AreValidPCMessages_round_limit_witness :
    (∀ m ∈ [mkPreprepare 1 5 0 7, mkPrepare 2 5 0 7], m.View.Round < 1) ∧
      AreValidPCMessages [mkPreprepare 1 5 0 7, mkPrepare 2 5 0 7] 5 0 = false :=
  ⟨(AreValidPCMessages_round_limit [mkPreprepare 1 5 0 7, mkPrepare 2 5 0 7] 5 1).1 (by decide),
    (AreValidPCMessages_round_limit [mkPreprepare 1 5 0 7, mkPrepare 2 5 0 7] 5 0).2.1
      (by
        intro m hm
        simp only [List.mem_cons, List.mem_singleton, List.not_mem_nil, or_false] at hm
        rcases hm with rfl | rfl <;> rfl)⟩

/-! ## Claims about `HasUniqueSenders` -/

/-- The loop of `HasUniqueSenders` accepts a list exactly when its senders
are new with respect to the seen set and pairwise distinct. -/
theorem hasUniqueSendersLoop_iff :
    ∀ (messages : List (IbftMessage P R C)) (senderMap : List Address),
      hasUniqueSendersLoop messages senderMap = true ↔
        (∀ m ∈ messages, m.From ∉ senderMap) ∧
          messages.Pairwise (fun a b => a.From ≠ b.From) := by
  intro messages
  induction messages with
  | nil => intro _; simp [hasUniqueSendersLoop]
  | cons message rest ih =>
      intro senderMap
      rw [hasUniqueSendersLoop]
      by_cases hin : message.From ∈ senderMap
      · simp [hin]
      · rw [if_neg hin, ih]
        simp only [List.mem_cons, not_or, List.pairwise_cons, forall_eq_or_imp]
        constructor
        · rintro ⟨hfresh, hpair⟩
          exact ⟨⟨hin, fun m hm => (hfresh m hm).2⟩,
            fun m hm heq => (hfresh m hm).1 heq.symm, hpair⟩
        · rintro ⟨⟨_, hfresh⟩, hhead, hpair⟩
          exact ⟨fun m hm => ⟨fun heq => hhead m hm heq.symm, hfresh m hm⟩, hpair⟩

/-- C9: `HasUniqueSenders` returns false for the empty list, and for a
non-empty list it returns true exactly when the senders of the messages are
pairwise distinct. -/
theorem HasUniqueSenders_spec :
    HasUniqueSenders ([] : List (IbftMessage P R C)) = false ∧
      ∀ messages : List (IbftMessage P R C), messages ≠ [] →
        (HasUniqueSenders messages = true ↔
          messages.Pairwise (fun a b => a.From ≠ b.From)) := by
  refine ⟨rfl, ?_⟩
  intro messages hne
  cases messages with
  | nil => exact absurd rfl hne
  | cons first rest =>
      have hlen : ¬ (first :: rest).length < 1 := by simp
      rw [HasUniqueSenders, if_neg hlen, hasUniqueSendersLoop_iff]
      simp

/-- Witness of C9: two messages of distinct senders are accepted. -/
theorem HasUniqueSenders_spec_witness :
    HasUniqueSenders [mkPrepare 1 5 0 7, mkPrepare 2 5 0 7] = true :=
  ((HasUniqueSenders_spec.2 [mkPrepare 1 5 0 7, mkPrepare 2 5 0 7] (by simp)).2
    (by simp [mkPrepare]))

/-! ## Claims about `ExtractCommittedSeals` -/

/-- The loop of `ExtractCommittedSeals` fails as soon as a message is not a
COMMIT, and otherwise appends the seal of every message in order. -/
theorem extractCommittedSealsLoop_eq :
    ∀ (commitMessages : List (IbftMessage P R C)) (committedSeals : List (Option CommittedSeal)),
      extractCommittedSealsLoop commitMessages committedSeals =
        if ∀ m ∈ commitMessages, m.MsgType = MessageType.COMMIT then
          (some (committedSeals ++ commitMessages.map ExtractCommittedSeal), none)
        else (none, some MessagesError.ErrWrongCommitMessageType) := by
  intro commitMessages
  induction commitMessages with
  | nil => intro _; simp [extractCommittedSealsLoop]
  | cons commitMessage rest ih =>
      intro committedSeals
      rw [extractCommittedSealsLoop]
      by_cases hkind : commitMessage.MsgType = MessageType.COMMIT
      · by_cases hrest : ∀ m ∈ rest, m.MsgType = MessageType.COMMIT
        · simp [hkind, hrest, ih]
        · simp [hkind, hrest, ih]
      · simp [hkind]

/-- C10: `ExtractCommittedSeals` fails exactly when some message has a
declared kind other than COMMIT, and when it fails it returns the error
`ErrWrongCommitMessageType` together with nil seals. -/
theorem ExtractCommittedSeals_fails_iff (commitMessages : List (IbftMessage P R C)) :
    ((ExtractCommittedSeals commitMessages).2 ≠ none ↔
        ∃ m ∈ commitMessages, m.MsgType ≠ MessageType.COMMIT) ∧
      ((ExtractCommittedSeals commitMessages).2 ≠ none →
        ExtractCommittedSeals commitMessages =
          (none, some MessagesError.ErrWrongCommitMessageType)) := by
  rw [ExtractCommittedSeals, extractCommittedSealsLoop_eq]
  by_cases hall : ∀ m ∈ commitMessages, m.MsgType = MessageType.COMMIT
  · rw [if_pos hall]
    refine ⟨⟨fun h => absurd rfl h, ?_⟩, fun h => absurd rfl h⟩
    rintro ⟨m, hm, hne⟩
    exact absurd (hall m hm) hne
  · rw [if_neg hall]
    refine ⟨⟨fun _ => ?_, fun _ => by simp⟩, fun _ => rfl⟩
    push_neg at hall
    exact hall

/-- Witness of C10: a COMMIT followed by a PREPARE makes the extraction fail
with `ErrWrongCommitMessageType` and nil seals. -/
theorem ExtractCommittedSeals_fails_iff_witness :
    ExtractCommittedSeals [mkBare MessageType.COMMIT 1 5 0, mkPrepare 2 5 0 7] =
      (none, some MessagesError.ErrWrongCommitMessageType) :=
  (ExtractCommittedSeals_fails_iff [mkBare MessageType.COMMIT 1 5 0, mkPrepare 2 5 0 7]).2
    (by decide)

/-! ## Claims about the quorum rule -/

/-- The voting power found by lookup is that of the first entry of the key. -/
theorem lookup_cons_power (k a : Address) (v : Nat) (rest : List (Address × Nat)) :
    List.lookup a ((k, v) :: rest) = if a = k then some v else List.lookup a rest := by
  by_cases h : a = k
  · subst h; simp [List.lookup]
  · have hb : (a == k) = false := by simpa using h
    simp [List.lookup, hb, h]

/-- An address that is no key of the entries has no voting power. -/
theorem lookup_eq_none_of_not_mem (a : Address) :
    ∀ entries : List (Address × Nat), a ∉ entries.map Prod.fst → List.lookup a entries = none := by
  intro entries
  induction entries with
  | nil => intro _; rfl
  | cons e rest ih =>
      obtain ⟨k, v⟩ := e
      intro hnot
      simp only [List.map_cons, List.mem_cons, not_or] at hnot
      rw [lookup_cons_power, if_neg hnot.1]
      exact ih hnot.2

/-- An address outside the table has voting power zero. -/
theorem VotingPowerTable.power_eq_zero (table : VotingPowerTable) (a : Address)
    (h : a ∉ table.validators) : table.power a = 0 := by
  have hnot : a ∉ table.entries.map Prod.fst := by
    simpa [VotingPowerTable.validators] using h
  simp [VotingPowerTable.power, lookup_eq_none_of_not_mem a _ hnot]

/-- The sum of the powers listed in entries with distinct keys is the sum,
over the keys, of the power found by lookup. -/
theorem sum_snd_eq_sum_lookup :
    ∀ entries : List (Address × Nat), (entries.map Prod.fst).Nodup →
      (entries.map Prod.snd).sum =
        ∑ a ∈ (entries.map Prod.fst).toFinset,
          (match List.lookup a entries with
            | some p => p
            | none => 0) := by
  intro entries
  induction entries with
  | nil => intro _; simp
  | cons e rest ih =>
      obtain ⟨k, v⟩ := e
      intro hnodup
      simp only [List.map_cons, List.nodup_cons] at hnodup
      obtain ⟨hk, hrest⟩ := hnodup
      have hkf : k ∉ (rest.map Prod.fst).toFinset := by simpa using hk
      simp only [List.map_cons, List.sum_cons, List.toFinset_cons]
      rw [Finset.sum_insert hkf, lookup_cons_power, if_pos rfl, ih hrest]
      congr 1
      refine Finset.sum_congr rfl ?_
      intro a ha
      have hne : a ≠ k := fun h => hkf (h ▸ ha)
      rw [lookup_cons_power, if_neg hne]

/-- The total voting power is the sum of the powers of the validators. -/
theorem totalVotingPower_eq_sum (table : VotingPowerTable) :
    totalVotingPower table = ∑ a ∈ table.validators, table.power a :=
  sum_snd_eq_sum_lookup table.entries table.nodupKeys

/-- The signed voting power only counts the signers that are validators. -/
theorem signedVotingPower_eq_sum_inter (table : VotingPowerTable) (signers : Finset Address) :
    signedVotingPower table signers = ∑ a ∈ signers ∩ table.validators, table.power a := by
  rw [signedVotingPower, ← Finset.sum_filter_add_sum_filter_not signers (· ∈ table.validators)]
  have hzero : ∑ a ∈ signers.filter (fun a => ¬ a ∈ table.validators), table.power a = 0 :=
    Finset.sum_eq_zero (fun a ha => table.power_eq_zero a (Finset.mem_filter.mp ha).2)
  rw [hzero, add_zero, Finset.filter_mem_eq_inter]

/-- The signed voting power never exceeds the total voting power. -/
theorem signedVotingPower_le_total (table : VotingPowerTable) (signers : Finset Address) :
    signedVotingPower table signers ≤ totalVotingPower table := by
  rw [signedVotingPower_eq_sum_inter, totalVotingPower_eq_sum]
  exact Finset.sum_le_sum_of_subset Finset.inter_subset_right

/-- C3: installing a voting power table with `setCurrentVotingPower` succeeds,
and afterwards `HasQuorum signers` is true exactly when
`signed ≥ ⌊2 * total / 3⌋ + 1`, where `total` is the sum of the voting power
of the validators of the table and `signed` the sum of the voting power of
the signers that are validators of the table. -/
theorem HasQuorum_iff_threshold (vm : ValidatorManager) (table : VotingPowerTable)
    (signers : Finset Address) :
    ∃ installed, setCurrentVotingPower vm (some table) = Except.ok installed ∧
      (HasQuorum installed signers = true ↔
        2 * (∑ a ∈ table.validators, table.power a) / 3 + 1
          ≤ ∑ a ∈ signers ∩ table.validators, table.power a) := by
  refine ⟨⟨table⟩, rfl, ?_⟩
  simp only [HasQuorum, quorumThreshold, decide_eq_true_eq]
  rw [totalVotingPower_eq_sum, signedVotingPower_eq_sum_inter]

/-- C4: quorum intersection.  When two signer sets both have quorum, the
validators that are in both hold more than a third of the total voting power
`T` (three times their power exceeds `T`); when `T = 3 * f + 1` they hold at
least `f + 1`. -/
theorem HasQuorum_intersection (vm : ValidatorManager) (S1 S2 : Finset Address)
    (h1 : HasQuorum vm S1 = true) (h2 : HasQuorum vm S2 = true) :
    totalVotingPower vm.validatorsVotingPower
        < 3 * ∑ a ∈ (S1 ∩ S2) ∩ vm.validatorsVotingPower.validators,
            vm.validatorsVotingPower.power a ∧
      ∀ f : Nat, totalVotingPower vm.validatorsVotingPower = 3 * f + 1 →
        f + 1 ≤ ∑ a ∈ (S1 ∩ S2) ∩ vm.validatorsVotingPower.validators,
          vm.validatorsVotingPower.power a := by
  simp only [HasQuorum, quorumThreshold, decide_eq_true_eq] at h1 h2
  rw [← signedVotingPower_eq_sum_inter]
  have hunion := signedVotingPower_le_total vm.validatorsVotingPower (S1 ∪ S2)
  have hsplit : signedVotingPower vm.validatorsVotingPower (S1 ∪ S2)
      + signedVotingPower vm.validatorsVotingPower (S1 ∩ S2)
      = signedVotingPower vm.validatorsVotingPower S1
        + signedVotingPower vm.validatorsVotingPower S2 :=
    Finset.sum_union_inter
  refine ⟨by omega, fun f hf => by omega⟩

/-- Witness of C4: with four validators of voting power 1, the quorums
`{A, B, C}` and `{B, C, D}` share `{B, C}`, of voting power 2. -/
theorem HasQuorum_intersection_witness :
    totalVotingPower tableOfFour
        < 3 * ∑ a ∈ (({65, 66, 67} : Finset Address) ∩ {66, 67, 68}) ∩ tableOfFour.validators,
            tableOfFour.power a :=
  (HasQuorum_intersection ⟨tableOfFour⟩ {65, 66, 67} {66, 67, 68} (by decide) (by decide)).1

/-! ## Claims about the payload extractors -/

/-- C11, evaluated at the failing input: a message declared PREPARE that
carries commit data is not a COMMIT message, and `ExtractCommittedSeal`
returns a seal for it instead of nil. -/
theorem ExtractCommittedSeal_ignores_kind :
    (mkWithCommitData MessageType.PREPARE 1 5 0 7 [1, 2]).MsgType ≠ MessageType.COMMIT ∧
      ExtractCommittedSeal (mkWithCommitData MessageType.PREPARE 1 5 0 7 [1, 2])
        = some { Signer := 1, Signature := [1, 2] } := by
  decide

/-- C12: each of `ExtractCommitHash`, `ExtractProposal`, `ExtractProposalHash`,
`ExtractRoundChangeCertificate`, `ExtractPrepareHash`, `ExtractLatestPC` and
`ExtractLastPreparedProposal` returns its sentinel (the zero hash, or nil)
when the declared kind of the message is not the expected one or its payload
is not the variant of that kind. -/
theorem extractors_sentinel (m : IbftMessage P R C) :
    ((m.MsgType ≠ MessageType.COMMIT ∨ ∀ d, m.Payload ≠ Payload.CommitData d) →
        ExtractCommitHash m = zeroHash) ∧
      ((m.MsgType ≠ MessageType.PREPREPARE ∨ ∀ d, m.Payload ≠ Payload.PreprepareData d) →
        ExtractProposal m = none ∧ ExtractProposalHash m = zeroHash ∧
          ExtractRoundChangeCertificate m = none) ∧
      ((m.MsgType ≠ MessageType.PREPARE ∨ ∀ d, m.Payload ≠ Payload.PrepareData d) →
        ExtractPrepareHash m = zeroHash) ∧
      ((m.MsgType ≠ MessageType.ROUND_CHANGE ∨ ∀ d, m.Payload ≠ Payload.RoundChangeData d) →
        ExtractLatestPC m = none ∧ ExtractLastPreparedProposal m = none) := by
  obtain ⟨view, sender, kind, payload⟩ := m
  refine ⟨?_, ?_, ?_, ?_⟩
  · rintro (hk | hp)
    · simp [ExtractCommitHash, hk]
    · cases payload <;> simp_all [ExtractCommitHash]
  · rintro (hk | hp)
    · simp [ExtractProposal, ExtractProposalHash, ExtractRoundChangeCertificate, hk]
    · cases payload <;>
        simp_all [ExtractProposal, ExtractProposalHash, ExtractRoundChangeCertificate]
  · rintro (hk | hp)
    · simp [ExtractPrepareHash, hk]
    · cases payload <;> simp_all [ExtractPrepareHash]
  · rintro (hk | hp)
    · simp [ExtractLatestPC, ExtractLastPreparedProposal, hk]
    · cases payload <;> simp_all [ExtractLatestPC, ExtractLastPreparedProposal]

/-- Witness of C12: a message declared PREPARE that carries commit data yields
the zero hash under `ExtractCommitHash` (wrong kind) and under
`ExtractPrepareHash` (wrong payload variant). -/
theorem extractors_sentinel_witness :
    ExtractCommitHash (mkWithCommitData MessageType.PREPARE 1 5 0 7 [1, 2]) = zeroHash ∧
      ExtractPrepareHash (mkWithCommitData MessageType.PREPARE 1 5 0 7 [1, 2]) = zeroHash :=
  ⟨(extractors_sentinel (mkWithCommitData MessageType.PREPARE 1 5 0 7 [1, 2])).1
      (Or.inl (by decide)),
    (extractors_sentinel (mkWithCommitData MessageType.PREPARE 1 5 0 7 [1, 2])).2.2.1
      (Or.inr (by intro d h; cases h))⟩

/-- C13: on a message whose declared kind and payload variant agree, every
extractor returns the corresponding payload field; the committed seal of a
COMMIT message has the sender as signer and the commit data's seal as
signature. -/
theorem extractors_field (m : IbftMessage P R C) :
    (∀ d, m.MsgType = MessageType.COMMIT → m.Payload = Payload.CommitData d →
        ExtractCommitHash m = d.ProposalHash ∧
          ExtractCommittedSeal m = some { Signer := m.From, Signature := d.CommittedSeal }) ∧
      (∀ d, m.MsgType = MessageType.PREPREPARE → m.Payload = Payload.PreprepareData d →
        ExtractProposal m = d.Proposal ∧ ExtractProposalHash m = d.ProposalHash ∧
          ExtractRoundChangeCertificate m = d.Certificate) ∧
      (∀ d, m.MsgType = MessageType.PREPARE → m.Payload = Payload.PrepareData d →
        ExtractPrepareHash m = d.ProposalHash) ∧
      (∀ d, m.MsgType = MessageType.ROUND_CHANGE → m.Payload = Payload.RoundChangeData d →
        ExtractLatestPC m = d.LatestPreparedCertificate ∧
          ExtractLastPreparedProposal m = d.LastPreparedProposal) := by
  refine ⟨?_, ?_, ?_, ?_⟩
  · intro d hk hp
    simp [ExtractCommitHash, ExtractCommittedSeal, hk, hp]
  · intro d hk hp
    simp [ExtractProposal, ExtractProposalHash, ExtractRoundChangeCertificate, hk, hp]
  · intro d hk hp
    simp [ExtractPrepareHash, hk, hp]
  · intro d hk hp
    simp [ExtractLatestPC, ExtractLastPreparedProposal, hk, hp]

/-- Witness of C13: a COMMIT message of sender 1 carrying the hash 7 and the
seal `[1, 2]`. -/
theorem extractors_field_witness :
    ExtractCommitHash (mkWithCommitData MessageType.COMMIT 1 5 0 7 [1, 2]) = 7 ∧
      ExtractCommittedSeal (mkWithCommitData MessageType.COMMIT 1 5 0 7 [1, 2])
        = some { Signer := 1, Signature := [1, 2] } :=
  (extractors_field (mkWithCommitData MessageType.COMMIT 1 5 0 7 [1, 2])).1
    { ProposalHash := 7, CommittedSeal := [1, 2] } rfl rfl

/-- C17: when every message is declared COMMIT, `ExtractCommittedSeals`
returns no error and the list, in input order, of `ExtractCommittedSeal` of
each message: the list has the length of the input and its `i`-th element is
the seal of the `i`-th message, nil when that message carries no commit data.
The empty input yields the empty list and no error. -/
theorem ExtractCommittedSeals_of_all_commit (commitMessages : List (IbftMessage P R C))
    (hall : ∀ m ∈ commitMessages, m.MsgType = MessageType.COMMIT) :
    ExtractCommittedSeals ([] : List (IbftMessage P R C)) = (some [], none) ∧
      ∃ seals, ExtractCommittedSeals commitMessages = (some seals, none) ∧
        seals.length = commitMessages.length ∧
        (∀ i : Fin commitMessages.length,
          seals[i.val]? = some (ExtractCommittedSeal (commitMessages.get i))) ∧
        (∀ i : Fin commitMessages.length,
          (∀ d, (commitMessages.get i).Payload ≠ Payload.CommitData d) →
            seals[i.val]? = some none) := by
  refine ⟨rfl, commitMessages.map ExtractCommittedSeal, ?_, by simp, ?_, ?_⟩
  · rw [ExtractCommittedSeals, extractCommittedSealsLoop_eq, if_pos hall, List.nil_append]
  · intro i
    simp
  · intro i hp
    have hnone : ExtractCommittedSeal (commitMessages.get i) = none := by
      unfold ExtractCommittedSeal
      cases hpay : (commitMessages.get i).Payload <;> simp_all
    simp only [List.getElem?_map, List.getElem?_eq_getElem i.isLt, Option.map_some', ← hnone]
    rfl

/-- Witness of C17: a COMMIT carrying commit data followed by a COMMIT
without payload yield a seal followed by nil. -/
theorem ExtractCommittedSeals_of_all_commit_witness :
    ∃ seals, ExtractCommittedSeals
        [mkWithCommitData MessageType.COMMIT 1 5 0 7 [1, 2], mkBare MessageType.COMMIT 2 5 0]
          = (some seals, none) ∧ seals.length = 2 :=
  have h := (ExtractCommittedSeals_of_all_commit
    [mkWithCommitData MessageType.COMMIT 1 5 0 7 [1, 2], mkBare MessageType.COMMIT 2 5 0]
    (by
      intro m hm
      simp only [List.mem_cons, List.mem_singleton, List.not_mem_nil, or_false] at hm
      rcases hm with rfl | rfl <;> rfl)).2
  h.elim (fun seals hs => ⟨seals, hs.1, hs.2.1⟩)

/-! ## Further claims about the quorum rule -/

/-- C14: `HasQuorum` is monotonic in the signer set. -/
theorem HasQuorum_mono (vm : ValidatorManager) (S T : Finset Address)
    (hsub : S ⊆ T) (h : HasQuorum vm S = true) : HasQuorum vm T = true := by
  simp only [HasQuorum, decide_eq_true_eq] at h ⊢
  have hle : signedVotingPower vm.validatorsVotingPower S
      ≤ signedVotingPower vm.validatorsVotingPower T :=
    Finset.sum_le_sum_of_subset hsub
  exact le_trans h hle

/-- Witness of C14: with four validators of voting power 1, the quorum
`{A, B, C}` stays a quorum when `D` joins. -/
theorem HasQuorum_mono_witness :
    HasQuorum ⟨tableOfFour⟩ {65, 66, 67, 68} = true :=
  HasQuorum_mono ⟨tableOfFour⟩ {65, 66, 67} {65, 66, 67, 68} (by decide) (by decide)

/-- C15: `setCurrentVotingPower` accepts the empty table without error, and
after installing it, or any table of total voting power zero, `HasQuorum` is
false for every signer set. -/
theorem HasQuorum_false_of_zero_total (vm : ValidatorManager) (table : VotingPowerTable)
    (signers : Finset Address) :
    (∃ installed,
        setCurrentVotingPower vm (some VotingPowerTable.empty) = Except.ok installed ∧
          HasQuorum installed signers = false) ∧
      (totalVotingPower table = 0 →
        ∃ installed, setCurrentVotingPower vm (some table) = Except.ok installed ∧
          HasQuorum installed signers = false) := by
  have key : ∀ t : VotingPowerTable, totalVotingPower t = 0 →
      HasQuorum ⟨t⟩ signers = false := by
    intro t ht
    have hle := signedVotingPower_le_total t signers
    simp only [HasQuorum, quorumThreshold, decide_eq_false_iff_not]
    omega
  exact ⟨⟨⟨VotingPowerTable.empty⟩, rfl, key _ rfl⟩, fun ht => ⟨⟨table⟩, rfl, key _ ht⟩⟩

/-- Witness of C15: a table whose only validator has voting power zero gives
no quorum to that validator. -/
theorem HasQuorum_false_of_zero_total_witness :
    ∃ installed, setCurrentVotingPower newValidatorManager (some tableOfZero)
        = Except.ok installed ∧ HasQuorum installed {65} = false :=
  (HasQuorum_false_of_zero_total newValidatorManager tableOfZero {65}).2 (by decide)

/-- In entries that all carry the voting power 1, every key has power 1. -/
theorem lookup_eq_one_of_mem (a : Address) :
    ∀ entries : List (Address × Nat), (∀ e ∈ entries, e.2 = 1) →
      a ∈ entries.map Prod.fst → List.lookup a entries = some 1 := by
  intro entries
  induction entries with
  | nil => intro _ hmem; simp at hmem
  | cons e rest ih =>
      obtain ⟨k, v⟩ := e
      intro hone hmem
      have hv : v = 1 := hone (k, v) (List.mem_cons_self _ _)
      rw [lookup_cons_power]
      by_cases hak : a = k
      · rw [if_pos hak, hv]
      · rw [if_neg hak]
        refine ih (fun e he => hone e (List.mem_cons_of_mem _ he)) ?_
        simp only [List.map_cons, List.mem_cons] at hmem
        exact hmem.resolve_left hak

/-- In a table whose validators all have voting power 1, `power` is 1 on
the validators. -/
theorem VotingPowerTable.power_eq_one (table : VotingPowerTable)
    (hone : ∀ e ∈ table.entries, e.2 = 1) (a : Address) (ha : a ∈ table.validators) :
    table.power a = 1 := by
  have hmem : a ∈ table.entries.map Prod.fst := by
    simpa [VotingPowerTable.validators] using ha
  simp [VotingPowerTable.power, lookup_eq_one_of_mem a _ hone hmem]

/-- C16: the quorum threshold at `total = 3 * f + 1` is `2 * f + 1`; for a
table of `N` validators of voting power 1 the threshold is `⌊2 * N / 3⌋ + 1`
and `HasQuorum` holds exactly for the signer sets that contain at least that
many validators of the table. -/
theorem quorumThreshold_unit_power :
    (∀ f : Nat, quorumThreshold (3 * f + 1) = 2 * f + 1) ∧
      ∀ table : VotingPowerTable, (∀ e ∈ table.entries, e.2 = 1) →
        quorumThreshold (totalVotingPower table) = 2 * table.validators.card / 3 + 1 ∧
          ∀ signers : Finset Address,
            (HasQuorum ⟨table⟩ signers = true ↔
              2 * table.validators.card / 3 + 1 ≤ (signers ∩ table.validators).card) := by
  refine ⟨fun f => by simp only [quorumThreshold]; omega, ?_⟩
  intro table hone
  have htotal : totalVotingPower table = table.validators.card := by
    rw [totalVotingPower_eq_sum, Finset.card_eq_sum_ones]
    exact Finset.sum_congr rfl (fun a ha => table.power_eq_one hone a ha)
  refine ⟨by rw [htotal, quorumThreshold], ?_⟩
  intro signers
  have hsigned : signedVotingPower table signers = (signers ∩ table.validators).card := by
    rw [signedVotingPower_eq_sum_inter, Finset.card_eq_sum_ones]
    exact Finset.sum_congr rfl
      (fun a ha => table.power_eq_one hone a (Finset.mem_inter.mp ha).2)
  simp only [HasQuorum, quorumThreshold, decide_eq_true_eq, htotal, hsigned]

/-- Witness of C16: with four validators of voting power 1 the threshold is
3, and three of them have quorum. -/
theorem quorumThreshold_unit_power_witness :
    quorumThreshold (totalVotingPower tableOfFour) = 2 * tableOfFour.validators.card / 3 + 1 ∧
      HasQuorum ⟨tableOfFour⟩ {65, 66, 67} = true :=
  ⟨(quorumThreshold_unit_power.2 tableOfFour (by decide)).1,
    ((quorumThreshold_unit_power.2 tableOfFour (by decide)).2 {65, 66, 67}).2 (by decide)⟩

/-! ## Order and sub-lists in `AreValidPCMessages` -/

/-- C18: the verdict of `AreValidPCMessages` depends on the order of the
messages.  A PREPARE carrying the zero hash followed by a PREPARE of another
sender carrying the hash 7 is accepted, and the same two messages in the
reverse order are rejected. -/
theorem AreValidPCMessages_order_dependent :
    ∃ (messages permuted : List (IbftMessage Unit Unit Unit)) (height roundLimit : Nat),
      messages.Perm permuted ∧
        AreValidPCMessages messages height roundLimit = true ∧
        AreValidPCMessages permuted height roundLimit = false :=
  ⟨[mkPrepare 1 5 0 0, mkPrepare 2 5 0 7], [mkPrepare 2 5 0 7, mkPrepare 1 5 0 0], 5, 1,
    List.Perm.swap _ _ _, by decide, by decide⟩

/-- The validation loop accepts every order-preserving sub-list of a list it
accepts, from any state that has seen no more senders and whose reference
hash is unset or the same. -/
theorem areValidPCMessagesLoop_sublist {height roundLimit round : Nat}
    {sub messages : List (IbftMessage P R C)} (hsub : sub.Sublist messages) :
    ∀ (hash hash' : Hash) (senderMap senderMap' : List Address),
      (hash' = zeroHash ∨ hash' = hash) → senderMap' ⊆ senderMap →
      areValidPCMessagesLoop height roundLimit round messages hash senderMap = true →
      areValidPCMessagesLoop height roundLimit round sub hash' senderMap' = true := by
  induction hsub with
  | slnil => intro _ _ _ _ _ _ _; rfl
  | @cons sub messages a _ ih =>
      intro hash hash' senderMap senderMap' hhash hseen hloop
      rw [areValidPCMessagesLoop_cons] at hloop
      obtain ⟨_, _, _, _, _, _, hrest⟩ := hloop
      refine ih _ hash' _ senderMap' ?_ (fun x hx => List.mem_cons_of_mem _ (hseen hx)) hrest
      rcases hhash with h0 | heq
      · exact Or.inl h0
      · by_cases hz : hash = zeroHash
        · exact Or.inl (heq.trans hz)
        · rw [if_neg hz]; exact Or.inr heq
  | @cons₂ sub messages a _ ih =>
      intro hash hash' senderMap senderMap' hhash hseen hloop
      rw [areValidPCMessagesLoop_cons] at hloop
      obtain ⟨h1, h2, h3, h4, h5, h6, hrest⟩ := hloop
      have hnext : (if hash' = zeroHash then (extractPCMessageHash a).1 else hash')
          = (extractPCMessageHash a).1 := by
        by_cases hz : hash' = zeroHash
        · rw [if_pos hz]
        · rw [if_neg hz]
          rcases hhash with h0 | heq
          · exact absurd h0 hz
          · rw [heq] at hz ⊢
            rw [if_neg hz] at h5
            exact h5
      rw [areValidPCMessagesLoop_cons]
      refine ⟨h1, h2, h3, h4, hnext, fun hin => h6 (hseen hin), ?_⟩
      rw [hnext]
      rw [h5] at hrest
      refine ih _ _ _ _ (Or.inr rfl) ?_ hrest
      intro x hx
      rcases List.mem_cons.mp hx with rfl | hx
      · exact List.mem_cons_self _ _
      · exact List.mem_cons_of_mem _ (hseen hx)

/-- C19: validity is closed under removing messages.  When
`AreValidPCMessages` accepts a list, it accepts, with the same height and
round limit, every non-empty order-preserving sub-list of it. -/
theorem AreValidPCMessages_sublist (messages sub : List (IbftMessage P R C))
    (height roundLimit : Nat)
    (hvalid : AreValidPCMessages messages height roundLimit = true)
    (hsub : sub.Sublist messages) (hne : sub ≠ []) :
    AreValidPCMessages sub height roundLimit = true := by
  obtain ⟨first, rest, rfl, hloop⟩ := AreValidPCMessages_true hvalid
  cases sub with
  | nil => exact absurd rfl hne
  | cons s srest =>
      have hs : s ∈ first :: rest := hsub.subset (List.mem_cons_self _ _)
      have hround : s.View.Round = first.View.Round :=
        (areValidPCMessagesLoop_forall _ _ _ hloop s hs).2.1
      rw [AreValidPCMessages_cons, hround]
      exact areValidPCMessagesLoop_sublist hsub zeroHash zeroHash [] []
        (Or.inl rfl) (fun _ hx => hx) hloop

/-- Witness of C19: dropping the PREPREPARE of an accepted pair leaves an
accepted list. -/
theorem AreValidPCMessages_sublist_witness :
    AreValidPCMessages [mkPrepare 2 5 0 7] 5 1 = true :=
  AreValidPCMessages_sublist [mkPreprepare 1 5 0 7, mkPrepare 2 5 0 7] [mkPrepare 2 5 0 7] 5 1
    (by decide) (List.Sublist.cons _ (List.Sublist.refl _)) (by simp)

end IBFT
